import Mathlib

set_option maxRecDepth 100000

/-!
Shallow embedding of `staffpad_xml_cleanup.py` (class `InstrumentManager`):
the canonical-name table, the substring-matching resolver, the discovery
traversal with per-family counters, the single-occurrence cleanup pass and
the apply (rename) pass, together with theorems about the specified
properties.
-/

namespace StaffpadXmlCleanup

/-! ### Python string containment (`pattern in name`) -/

/-- Boolean check that `p` is a prefix of `s` (over characters). -/
def prefMatch : List Char → List Char → Bool
  | [], _ => true
  | _ :: _, [] => false
  | a :: as, b :: bs => a = b && prefMatch as bs

/-- Boolean check that `p` occurs as a contiguous substring of `s`,
the semantics of Python's `p in s` on strings. -/
def subMatch (p : List Char) : List Char → Bool
  | [] => p.isEmpty
  | b :: bs => prefMatch p (b :: bs) || subMatch p bs

/-- Python `p in s` for strings. -/
def strIn (p s : String) : Bool := subMatch p.data s.data

/-! ### OrderedDict assignment

`d[k] = v` on a Python `OrderedDict`: if the key is already present its value
is updated in place (keeping its position), otherwise the pair is appended. -/

def odSet (m : List (String × String)) (k v : String) : List (String × String) :=
  if m.any (fun p => p.1 = k) then
    m.map (fun p => if p.1 = k then (p.1, v) else p)
  else m ++ [(k, v)]

/-! ### The canonical-name table (`_create_instrument_swap_map`) -/

def windInstruments : List String :=
  ["Piccolo", "Alto Flute", "Bass Flute", "Flutes", "Flute",
   "Oboes", "Oboe", "English Horn", "Contrabass Clarinet",
   "Bass Clarinet", "Eb Clarinet", "Clarinets", "Clarinet",
   "Contrabassoon", "Bassoons", "Bassoon", "Cor Anglais"]

def hornInstruments : List String :=
  ["12 French Horns", "2 French Horns", "4 French Horns"]

def brassInstruments : List String :=
  ["Horn Ensemble", "CineBrass French Horn", "2 Trumpets",
   "Trumpet Ensemble", "Trumpet", "Bass Trombone", "Trombones",
   "Trombone Ensemble", "Trombone", "Tuba"]

def percussionInstruments : List String :=
  ["Timpani", "Cymbals", "Glockenspiel", "Marimba",
   "Vibraphone", "Bass Drum 36in", "Bowed Gongs"]

def keysInstruments : List String := ["Harp"]

def voiceInstruments : List String :=
  ["Sopranos", "Full Chorus", "Boys Choir", "Solo Soprano"]

def stringsInstruments : List String :=
  ["Violin 1", "Violin 2", "Viola", "Cello", "Bass",
   "Violins 1", "Violins 2", "Violas", "Cellos", "Basses"]

def sections : List (String × List String) :=
  [("wind", windInstruments), ("horn", hornInstruments),
   ("brass", brassInstruments), ("percussion", percussionInstruments),
   ("keys", keysInstruments), ("voice", voiceInstruments),
   ("strings", stringsInstruments)]

/-- The table construction, mirroring `_create_instrument_swap_map` step by
step (including the duplicated `Cinestrings Solo` loop of the source, which
has no semantic effect beyond the first insertion). -/
def create_instrument_swap_map : List (String × String) :=
  let m := sections.foldl (fun m sec => sec.2.foldl (fun m inst => odSet m inst inst) m) []
  let m := odSet m "Cor Anglais" "English Horn"
  let m := (List.range' 1 4).foldl
    (fun m i => odSet m ("Berlin Brass Horn " ++ Nat.repr i) "French Horn") m
  let m := odSet m "Horn Ensemble" "4 French Horns"
  let m := odSet m "CineBrass French Horn" "French Horn"
  let m := odSet m "Trumpet Ensemble" "2 Trumpets"
  let m := odSet m "Trombone Ensemble" "Trombones"
  let m := percussionInstruments.foldl (fun m p => odSet m ("CinePerc " ++ p) p) m
  let m := voiceInstruments.foldl (fun m v => odSet m ("VOXOS " ++ v) v) m
  let m := ["Violin 1", "Violin 2", "Viola", "Cello", "Bass"].foldl
    (fun m s => odSet m ("Cinestrings Solo " ++ s) ("Solo " ++ s)) m
  let m := ["Violin 1", "Violin 2", "Viola", "Cello", "Bass"].foldl
    (fun m s =>
      odSet (odSet m ("Cinestrings Solo " ++ s) ("Solo " ++ s))
        ("First Chair " ++ s) ("Solo " ++ s)) m
  let m := ["Violins 1", "Violins 2", "Violas", "Cellos", "Basses"].foldl
    (fun m s => odSet m ("Berlin Strings " ++ s) s) m
  let m := odSet m "Spitfire Chamber Strings Violins I" "Violins 1"
  let m := odSet m "Spitfire Chamber Strings Violins II" "Violins 2"
  let m := ["Violas", "Cellos", "Basses"].foldl
    (fun m s => odSet m ("Spitfire Chamber Strings " ++ s) s) m
  m

/-- `self.instrument_swap_map`, fixed at construction time. -/
def instrument_swap_map : List (String × String) := create_instrument_swap_map

/-- The canonical family names: the values of the table. -/
def tableValues : List String := instrument_swap_map.map Prod.snd

/-! ### Data model -/

/-- One entry of a rename plan: `{"original name": ..., "swap name": ...}`. -/
structure RenameMap where
  originalName : String
  swapName : String
deriving DecidableEq, Repr

/-- A rename dictionary: Python `dict` keyed by element id, in insertion
order. -/
abbrev RenameDict := List (String × RenameMap)

/-- A `collections.Counter`: keys in first-insertion order. -/
abbrev Counter := List (String × Nat)

/-- `counter[k]` (0 when the key is absent). -/
def cGet : Counter → String → Nat
  | [], _ => 0
  | p :: rest, k => if p.1 = k then p.2 else cGet rest k

/-- `counter[k] += 1`. -/
def cInc (c : Counter) (k : String) : Counter :=
  if c.any (fun p => p.1 = k) then
    c.map (fun p => if p.1 = k then (p.1, p.2 + 1) else p)
  else c ++ [(k, 1)]

/-- `d.get(k)` on a rename dictionary. -/
def dictGet : RenameDict → String → Option RenameMap
  | [], _ => none
  | p :: rest, k => if p.1 = k then some p.2 else dictGet rest k

/-- `d[k] = v` on a rename dictionary. -/
def dictInsert (d : RenameDict) (k : String) (v : RenameMap) : RenameDict :=
  if d.any (fun p => p.1 = k) then
    d.map (fun p => if p.1 = k then (p.1, v) else p)
  else d ++ [(k, v)]

/-- The Python exceptions the engine can raise: `AttributeError` from
dereferencing a missing element (`find` returning `None`), and
`AssertionError` from the apply-phase consistency assert. -/
inductive PyError where
  | attributeError
  | assertionError
deriving DecidableEq, Repr

/-- A `score-instrument` element: its `id` attribute and the texts of its
`instrument-name` children in document order. -/
structure ScoreInstrument where
  id : String
  instrumentNames : List String
deriving DecidableEq, Repr

/-- A `score-part` element: its `id` attribute, the texts of its `part-name`
children, and its nested `score-instrument` elements, in document order. -/
structure ScorePart where
  id : String
  partNames : List String
  scoreInstruments : List ScoreInstrument
deriving DecidableEq, Repr

/-- The document as the engine sees it: the `part-list` element (or `none`
when absent) with its `score-part` children. -/
structure MusicDoc where
  partList : Option (List ScorePart)
deriving DecidableEq, Repr

/-! ### Matching (`_find_generic_name`) -/

/-- The pure matching part of `_find_generic_name`: scan the table in
insertion order and return the canonical family of the first raw pattern
contained in `name`. -/
def resolve (name : String) : Option String :=
  (instrument_swap_map.find? (fun p => strIn p.1 name)).map Prod.snd

/-- `_find_generic_name`: resolve `name`; on a match bump the per-family
counter and return the plan entry together with the updated counter. -/
def findGenericName (name : String) (counter : Counter) :
    Option (RenameMap × Counter) :=
  match instrument_swap_map.find? (fun p => strIn p.1 name) with
  | some pr =>
    let counter' := cInc counter pr.2
    some (⟨name, pr.2 ++ " " ++ Nat.repr (cGet counter' pr.2)⟩, counter')
  | none => none

/-! ### Discovery (`find_generic_instrument_names`) -/

/-- The mutable discovery state of `InstrumentManager`. -/
structure DiscoverState where
  part_rename_dict : RenameDict
  instrument_rename_dict : RenameDict
  part_counter : Counter
  instrument_counter : Counter
deriving DecidableEq, Repr

def emptyState : DiscoverState := ⟨[], [], [], []⟩

/-- Process a sequence of (element id, label) pairs exactly as the
`part-name` loop does: resolve each label, and on a match record the plan
entry under the element's id. -/
def processLabels : List (String × String) → RenameDict → Counter →
    RenameDict × Counter
  | [], d, c => (d, c)
  | pr :: rest, d, c =>
    match findGenericName pr.2 c with
    | some rc => processLabels rest (dictInsert d pr.1 rc.1) rc.2
    | none => processLabels rest d c

/-- The `score-instrument` loop of `find_generic_instrument_names`:
`score_instrument.find('instrument-name')` yields the first child, and
dereferencing `.text` on a missing child raises `AttributeError`. -/
def processInstruments : List ScoreInstrument → RenameDict → Counter →
    Except PyError (RenameDict × Counter)
  | [], d, c => .ok (d, c)
  | si :: rest, d, c =>
    match si.instrumentNames.head? with
    | none => .error .attributeError
    | some nm =>
      match findGenericName nm c with
      | some rc => processInstruments rest (dictInsert d si.id rc.1) rc.2
      | none => processInstruments rest d c

/-- The `score-part` loop of `find_generic_instrument_names`: for each part,
first the `part-name` loop, then the `score-instrument` loop. -/
def processScoreParts : List ScorePart → DiscoverState →
    Except PyError DiscoverState
  | [], st => .ok st
  | sp :: rest, st =>
    let pc := processLabels (sp.partNames.map (fun nm => (sp.id, nm)))
      st.part_rename_dict st.part_counter
    match processInstruments sp.scoreInstruments
        st.instrument_rename_dict st.instrument_counter with
    | .error e => .error e
    | .ok ic => processScoreParts rest ⟨pc.1, ic.1, pc.2, ic.2⟩

/-- `find_generic_instrument_names(root)`: `root.find('part-list')` returning
`None` makes the subsequent `findall` raise `AttributeError`. -/
def find_generic_instrument_names (doc : MusicDoc) (st : DiscoverState) :
    Except PyError DiscoverState :=
  match doc.partList with
  | none => .error .attributeError
  | some parts => processScoreParts parts st

/-! ### Cleanup (`_cleanup`, `cleanup_names`) -/

/-- `_cleanup(counter, rename_dict)`: for every family with count exactly 1,
rewrite every plan entry whose proposed name is `"<family> 1"` to the bare
family name. -/
def cleanupDict (counter : Counter) (d : RenameDict) : RenameDict :=
  counter.foldl
    (fun d p =>
      if p.2 = 1 then
        d.map (fun e =>
          if e.2.swapName = p.1 ++ " 1" then (e.1, ⟨e.2.originalName, p.1⟩) else e)
      else d) d

/-- `cleanup_names`: instruments first, then parts. -/
def cleanup_names (st : DiscoverState) : DiscoverState :=
  { st with
    instrument_rename_dict := cleanupDict st.instrument_counter st.instrument_rename_dict,
    part_rename_dict := cleanupDict st.part_counter st.part_rename_dict }

/-! ### Apply (`_rename_element`, `rename_instruments`) -/

/-- The tag loop of `_rename_element`: each matching tag is overwritten with
the proposed name; on the first tag whose text differs from the recorded
original name the assert fires, leaving that tag and everything after it
unmodified. -/
def renameTags (tags : List String) (rm : RenameMap) :
    List String × Option PyError :=
  match tags with
  | [] => ([], none)
  | t :: rest =>
    if t = rm.originalName then
      match renameTags rest rm with
      | (rest2, e) => (rm.swapName :: rest2, e)
    else (t :: rest, some .assertionError)

/-- `_rename_element`: look the element's id up in the rename dictionary; no
entry means the element is left untouched. -/
def renameElement (elemId : String) (tags : List String) (d : RenameDict) :
    List String × Option PyError :=
  match dictGet d elemId with
  | some rm => renameTags tags rm
  | none => (tags, none)

/-- Apply to the `score-instrument` elements of one part, stopping at the
first raised error. -/
def renameScoreInstruments : List ScoreInstrument → RenameDict →
    List ScoreInstrument × Option PyError
  | [], _ => ([], none)
  | si :: rest, d =>
    match renameElement si.id si.instrumentNames d with
    | (tags, some e) => (⟨si.id, tags⟩ :: rest, some e)
    | (tags, none) =>
      match renameScoreInstruments rest d with
      | (rest2, e) => (⟨si.id, tags⟩ :: rest2, e)

/-- Apply to one `score-part`: first its `part-name` tags, then its nested
`score-instrument` elements. -/
def renameScorePart (sp : ScorePart) (pd idd : RenameDict) :
    ScorePart × Option PyError :=
  match renameElement sp.id sp.partNames pd with
  | (tags, some e) => (⟨sp.id, tags, sp.scoreInstruments⟩, some e)
  | (tags, none) =>
    match renameScoreInstruments sp.scoreInstruments idd with
    | (instrs, e) => (⟨sp.id, tags, instrs⟩, e)

/-- The `score-part` loop of `rename_instruments`, stopping at the first
raised error. -/
def renameScoreParts : List ScorePart → RenameDict → RenameDict →
    List ScorePart × Option PyError
  | [], _, _ => ([], none)
  | sp :: rest, pd, idd =>
    match renameScorePart sp pd idd with
    | (sp2, some e) => (sp2 :: rest, some e)
    | (sp2, none) =>
      match renameScoreParts rest pd idd with
      | (rest2, e) => (sp2 :: rest2, e)

/-- `rename_instruments(root)`. -/
def rename_instruments (doc : MusicDoc) (pd idd : RenameDict) :
    MusicDoc × Option PyError :=
  match doc.partList with
  | none => (doc, some .attributeError)
  | some parts =>
    match renameScoreParts parts pd idd with
    | (parts2, e) => (⟨some parts2⟩, e)

/-- `process_xml`: discovery, cleanup, apply; a raised exception propagates
to the caller and no document is produced. -/
def process_xml (doc : MusicDoc) : Except PyError MusicDoc :=
  match find_generic_instrument_names doc emptyState with
  | .error e => .error e
  | .ok st =>
    match rename_instruments doc (cleanup_names st).part_rename_dict
        (cleanup_names st).instrument_rename_dict with
    | (_, some e) => .error e
    | (doc2, none) => .ok doc2

/-! ### Derived views of discovery used by the theorems

These are not new behaviour: they name the streams of (id, label) pairs the
two loops of `find_generic_instrument_names` consume, and the list of plan
entries those loops record, so the theorems can speak about them. -/

/-- The (element id, label) pairs the `part-name` loop consumes, in document
order. -/
def partPairs (parts : List ScorePart) : List (String × String) :=
  parts.flatMap (fun sp => sp.partNames.map (fun nm => (sp.id, nm)))

/-- The (element id, label) pairs the `score-instrument` loop of one part
consumes: the first `instrument-name` child of each instrument. -/
def instrPairs (instrs : List ScoreInstrument) : List (String × String) :=
  instrs.filterMap (fun si => si.instrumentNames.head?.map (fun nm => (si.id, nm)))

/-- The (element id, label) pairs the `score-instrument` loops consume over
the whole document, in document order. -/
def instPairs (parts : List ScorePart) : List (String × String) :=
  parts.flatMap (fun sp => instrPairs sp.scoreInstruments)

/-- The sequence of plan entries recorded while processing a label stream,
in recording order (the dictionary is the fold of these insertions). -/
def planList : List (String × String) → Counter → List (String × RenameMap)
  | [], _ => []
  | pr :: rest, c =>
    match findGenericName pr.2 c with
    | some rc => (pr.1, rc.1) :: planList rest rc.2
    | none => planList rest c

/-- The proposed names of the entries of a rename dictionary whose original
name resolves to the family `fam`, in dictionary order. -/
def famDictNames (d : RenameDict) (fam : String) : List String :=
  d.filterMap (fun e =>
    if resolve e.2.originalName = some fam then some e.2.swapName else none)

/-- The proposed names assigned to the entities of family `fam`, in
traversal order, when a label stream is processed from counter `c`. -/
def famNames (pairs : List (String × String)) (c : Counter) (fam : String) :
    List String :=
  famDictNames (planList pairs c) fam

/-- How many labels of the stream resolve to the family `fam`. -/
def countFam (pairs : List (String × String)) (fam : String) : Nat :=
  (pairs.filter (fun pr => resolve pr.2 = some fam)).length

/-- The evolution of one plan entry's proposed name under `_cleanup`: the
fold the counter loop performs on that single string. -/
def cleanName (counter : Counter) (s : String) : String :=
  counter.foldl
    (fun s p => if p.2 = 1 then (if s = p.1 ++ " 1" then p.1 else s) else s) s

/-- Invariant of the occurrence counters built by discovery: keys are
distinct, counts are positive, and every key is a canonical family value. -/
def CounterInv (c : Counter) : Prop :=
  (c.map Prod.fst).Nodup ∧ (∀ p ∈ c, 1 ≤ p.2) ∧ ∀ p ∈ c, p.1 ∈ tableValues

/-- The space character, as it occurs in the numbered-name format. -/
def spaceChar : Char := Char.ofNat 32

/-- The digit 1, the trailing character of the numbered form `"<family> 1"`. -/
def oneChar : Char := Char.ofNat 49

/-! ### Concrete documents and value lists used in the theorems -/

/-- The parts of the end-to-end example: two violin parts and a harp. -/
def c9parts : List ScorePart :=
  [⟨"P1", ["Violins 1"], []⟩, ⟨"P2", ["Violins 2"], []⟩, ⟨"P3", ["Harp"], []⟩]

/-- The document of the end-to-end example. -/
def c9doc : MusicDoc := ⟨some c9parts⟩

/-- The discovery state after processing the end-to-end example. -/
def c9state : DiscoverState :=
  ⟨[("P1", ⟨"Violins 1", "Violins 1 1"⟩),
    ("P2", ⟨"Violins 2", "Violins 2 1"⟩),
    ("P3", ⟨"Harp", "Harp 1"⟩)], [],
   [("Violins 1", 1), ("Violins 2", 1), ("Harp", 1)], []⟩

/-- The canonical family values that do NOT resolve back to themselves. -/
def nonFixpointValues : List String :=
  ["French Horn", "Violas", "Cellos", "Basses",
   "Solo Violin 1", "Solo Violin 2", "Solo Viola", "Solo Cello", "Solo Bass"]

/-! ### Lemmas: substring matching -/

theorem prefMatch_iff (p s : List Char) :
    prefMatch p s = true ↔ List.IsPrefix p s := by
  induction p generalizing s with
  | nil =>
    simp only [prefMatch]
    exact ⟨fun _ => ⟨s, rfl⟩, fun _ => trivial⟩
  | cons a as ih =>
    cases s with
    | nil =>
      simp only [prefMatch]
      constructor
      · intro h; cases h
      · rintro ⟨t, ht⟩; cases ht
    | cons b bs =>
      simp only [prefMatch, Bool.and_eq_true, decide_eq_true_eq, ih]
      constructor
      · rintro ⟨rfl, t, rfl⟩
        exact ⟨t, rfl⟩
      · rintro ⟨t, ht⟩
        injection ht with h1 h2
        exact ⟨h1, t, h2⟩

theorem subMatch_iff (p s : List Char) :
    subMatch p s = true ↔ List.IsInfix p s := by
  induction s with
  | nil =>
    simp only [subMatch]
    constructor
    · intro h
      have hp : p = [] := List.isEmpty_iff.mp h
      subst hp
      exact ⟨[], [], rfl⟩
    · rintro ⟨u, v, huv⟩
      have h1 := List.append_eq_nil.mp huv
      have h2 := List.append_eq_nil.mp h1.1
      rw [h2.2]
      rfl
  | cons b bs ih =>
    simp only [subMatch, Bool.or_eq_true, prefMatch_iff, ih]
    rw [List.infix_cons_iff]

theorem strIn_iff (p s : String) :
    strIn p s = true ↔ List.IsInfix p.data s.data :=
  subMatch_iff p.data s.data

/-! ### Lemmas: dictionaries and counters -/

theorem dictGet_append (d1 d2 : RenameDict) (x : String) :
    dictGet (d1 ++ d2) x =
      match dictGet d1 x with
      | some v => some v
      | none => dictGet d2 x := by
  induction d1 with
  | nil => rfl
  | cons hd tl ih =>
    simp only [List.cons_append, dictGet]
    by_cases h : hd.1 = x
    · simp [h]
    · simp [h, ih]

theorem dictGet_map_keyfix (d : RenameDict) (k x : String) (v : RenameMap)
    (h : k ≠ x) :
    dictGet (d.map (fun p => if p.1 = k then (p.1, v) else p)) x = dictGet d x := by
  induction d with
  | nil => rfl
  | cons hd tl ih =>
    simp only [List.map_cons, dictGet]
    by_cases hk : hd.1 = k
    · have hx : hd.1 ≠ x := by rw [hk]; exact h
      simp [hk, hx, h, ih]
    · simp only [if_neg hk]
      by_cases hx : hd.1 = x
      · simp [dictGet, hx]
      · simp [dictGet, hx, ih]

theorem dictGet_dictInsert_ne (d : RenameDict) (k x : String) (v : RenameMap)
    (h : k ≠ x) :
    dictGet (dictInsert d k v) x = dictGet d x := by
  unfold dictInsert
  split
  · exact dictGet_map_keyfix d k x v h
  · rw [dictGet_append]
    have : dictGet [(k, v)] x = none := by
      simp [dictGet, h]
    rw [this]
    cases dictGet d x <;> rfl

theorem dictInsert_fresh (d : RenameDict) (k : String) (v : RenameMap)
    (h : ∀ p ∈ d, p.1 ≠ k) :
    dictInsert d k v = d ++ [(k, v)] := by
  unfold dictInsert
  rw [if_neg]
  simp only [List.any_eq_true, decide_eq_true_eq, not_exists, not_and]
  intro p hp
  exact h p hp

theorem cGet_append_of_absent (c1 c2 : Counter) (x : String)
    (h : ∀ p ∈ c1, p.1 ≠ x) :
    cGet (c1 ++ c2) x = cGet c2 x := by
  induction c1 with
  | nil => rfl
  | cons hd tl ih =>
    simp only [List.cons_append, cGet, if_neg (h hd (by simp))]
    exact ih (fun p hp => h p (by simp [hp]))

theorem cGet_absent (c : Counter) (x : String) (h : ∀ p ∈ c, p.1 ≠ x) :
    cGet c x = 0 := by
  have := cGet_append_of_absent c [] x h
  simpa using this

theorem cGet_map_inc (c : Counter) (k : String) (h : ∃ p ∈ c, p.1 = k) :
    cGet (c.map (fun p => if p.1 = k then (p.1, p.2 + 1) else p)) k
      = cGet c k + 1 := by
  induction c with
  | nil => obtain ⟨p, hp, _⟩ := h; cases hp
  | cons hd tl ih =>
    by_cases hk : hd.1 = k
    · simp [List.map_cons, cGet, hk]
    · simp only [List.map_cons, if_neg hk, cGet]
      apply ih
      obtain ⟨p, hp, hpk⟩ := h
      rcases List.mem_cons.mp hp with rfl | hp
      · exact absurd hpk hk
      · exact ⟨p, hp, hpk⟩

theorem cGet_cInc_self (c : Counter) (k : String) :
    cGet (cInc c k) k = cGet c k + 1 := by
  unfold cInc
  split
  · next hany =>
    simp only [List.any_eq_true, decide_eq_true_eq] at hany
    exact cGet_map_inc c k hany
  · next hany =>
    simp only [List.any_eq_true, decide_eq_true_eq, not_exists, not_and] at hany
    rw [cGet_append_of_absent c [(k, 1)] k hany, cGet_absent c k hany]
    simp [cGet]

theorem cGet_map_inc_ne (c : Counter) (k x : String) (h : k ≠ x) :
    cGet (c.map (fun p => if p.1 = k then (p.1, p.2 + 1) else p)) x
      = cGet c x := by
  induction c with
  | nil => rfl
  | cons hd tl ih =>
    by_cases hk : hd.1 = k
    · have hx : hd.1 ≠ x := by rw [hk]; exact h
      simp [List.map_cons, cGet, hk, hx, h, ih]
    · simp only [List.map_cons, if_neg hk, cGet]
      by_cases hx : hd.1 = x
      · simp [hx]
      · simp only [if_neg hx]
        exact ih

theorem cGet_append_single_ne (c : Counter) (k x : String) (v : Nat)
    (h : k ≠ x) :
    cGet (c ++ [(k, v)]) x = cGet c x := by
  induction c with
  | nil => simp [cGet, h]
  | cons hd tl ih =>
    simp only [List.cons_append, cGet]
    by_cases hx : hd.1 = x
    · simp [hx]
    · simp only [if_neg hx]
      exact ih

theorem cGet_cInc_ne (c : Counter) (k x : String) (h : k ≠ x) :
    cGet (cInc c k) x = cGet c x := by
  unfold cInc
  split
  · exact cGet_map_inc_ne c k x h
  · exact cGet_append_single_ne c k x 1 h

/-! ### Lemmas: matching and discovery -/

-- findGenericName characterizations
theorem findGenericName_none (name : String) (c : Counter)
    (h : resolve name = none) : findGenericName name c = none := by
  unfold findGenericName
  unfold resolve at h
  cases hf : instrument_swap_map.find? (fun p => strIn p.1 name) with
  | none => rfl
  | some pr => rw [hf] at h; simp at h

theorem findGenericName_some (name : String) (c : Counter)
    (rc : RenameMap × Counter) (h : findGenericName name c = some rc) :
    ∃ pr, instrument_swap_map.find? (fun p => strIn p.1 name) = some pr ∧
      resolve name = some pr.2 ∧
      rc.1 = ⟨name, pr.2 ++ " " ++ Nat.repr (cGet (cInc c pr.2) pr.2)⟩ ∧
      rc.2 = cInc c pr.2 := by
  unfold findGenericName at h
  cases hf : instrument_swap_map.find? (fun p => strIn p.1 name) with
  | none => rw [hf] at h; cases h
  | some pr =>
    rw [hf] at h
    refine ⟨pr, rfl, ?_, ?_, ?_⟩
    · unfold resolve; rw [hf]; rfl
    · injection h with h1; rw [← h1]
    · injection h with h1; rw [← h1]

theorem resolve_mem_tableValues (name fam : String) (h : resolve name = some fam) :
    fam ∈ tableValues := by
  unfold resolve at h
  cases hf : instrument_swap_map.find? (fun p => strIn p.1 name) with
  | none => rw [hf] at h; cases h
  | some pr =>
    rw [hf] at h
    injection h with h1
    rw [← h1]
    exact List.mem_map_of_mem Prod.snd (List.mem_of_find?_eq_some hf)
-- processLabels: appending streams composes
theorem processLabels_append (l1 l2 : List (String × String)) (d : RenameDict)
    (c : Counter) :
    processLabels (l1 ++ l2) d c =
      processLabels l2 (processLabels l1 d c).1 (processLabels l1 d c).2 := by
  induction l1 generalizing d c with
  | nil => rfl
  | cons pr rest ih =>
    simp only [List.cons_append, processLabels]
    cases findGenericName pr.2 c with
    | some rc => exact ih _ _
    | none => exact ih _ _

-- instruments loop, on success, is processLabels on its pair stream
theorem processInstruments_ok_eq (instrs : List ScoreInstrument)
    (d : RenameDict) (c : Counter) (r : RenameDict × Counter)
    (h : processInstruments instrs d c = .ok r) :
    r = processLabels (instrPairs instrs) d c := by
  induction instrs generalizing d c with
  | nil =>
    simp only [processInstruments] at h
    injection h with h1
    rw [← h1]; rfl
  | cons si rest ih =>
    cases hh : si.instrumentNames.head? with
    | none =>
      simp only [processInstruments, hh] at h
      cases h
    | some nm =>
      simp only [instrPairs, List.filterMap_cons, hh, Option.map_some']
      cases hg : findGenericName nm c with
      | some rc =>
        simp only [processInstruments, hh, hg] at h
        simpa only [processLabels, hg] using ih _ _ h
      | none =>
        simp only [processInstruments, hh, hg] at h
        simpa only [processLabels, hg] using ih _ _ h

-- the score-part loop factors into two independent label streams
theorem processScoreParts_ok_eq (parts : List ScorePart) (st st' : DiscoverState)
    (h : processScoreParts parts st = .ok st') :
    (st'.part_rename_dict, st'.part_counter) =
      processLabels (partPairs parts) st.part_rename_dict st.part_counter ∧
    (st'.instrument_rename_dict, st'.instrument_counter) =
      processLabels (instPairs parts) st.instrument_rename_dict st.instrument_counter := by
  induction parts generalizing st with
  | nil =>
    simp only [processScoreParts] at h
    injection h with h1
    rw [← h1]
    exact ⟨rfl, rfl⟩
  | cons sp rest ih =>
    simp only [processScoreParts] at h
    cases hi : processInstruments sp.scoreInstruments st.instrument_rename_dict
        st.instrument_counter with
    | error e => rw [hi] at h; cases h
    | ok ic =>
      rw [hi] at h
      have hrec := ih _ h
      have hic := processInstruments_ok_eq _ _ _ _ hi
      constructor
      · rw [hrec.1]
        simp only [partPairs, List.flatMap_cons]
        rw [processLabels_append]
      · rw [hrec.2]
        simp only [instPairs, List.flatMap_cons]
        rw [processLabels_append, ← hic]
theorem processLabels_dictGet_of_none (pairs : List (String × String))
    (d : RenameDict) (c : Counter) (x : String)
    (h : ∀ pr ∈ pairs, pr.1 = x → resolve pr.2 = none) :
    dictGet (processLabels pairs d c).1 x = dictGet d x := by
  induction pairs generalizing d c with
  | nil => rfl
  | cons pr rest ih =>
    simp only [processLabels]
    cases hg : findGenericName pr.2 c with
    | none => exact ih _ _ (fun q hq => h q (List.mem_cons_of_mem _ hq))
    | some rc =>
      have hne : pr.1 ≠ x := by
        intro hx
        have hr := h pr (List.mem_cons_self _ _) hx
        rw [findGenericName_none pr.2 c hr] at hg
        cases hg
      rw [ih _ _ (fun q hq hqx => h q (List.mem_cons_of_mem _ hq) hqx)]
      exact dictGet_dictInsert_ne d pr.1 x rc.1 hne

theorem c1_first_match :
    (∀ name fam, resolve name = some fam ↔
      ∃ pat pre post, instrument_swap_map = pre ++ (pat, fam) :: post ∧
        List.IsInfix pat.data name.data ∧
        ∀ q ∈ pre, ¬ List.IsInfix q.1.data name.data) ∧
    (∀ name, resolve name = none ↔
      ∀ q ∈ instrument_swap_map, ¬ List.IsInfix q.1.data name.data) ∧
    (∀ parts st x, processScoreParts parts emptyState = .ok st →
      (∀ sp ∈ parts, sp.id = x → ∀ nm ∈ sp.partNames, resolve nm = none) →
      dictGet st.part_rename_dict x = none) ∧
    (∀ parts st x, processScoreParts parts emptyState = .ok st →
      (∀ sp ∈ parts, ∀ si ∈ sp.scoreInstruments, si.id = x →
        ∀ nm, si.instrumentNames.head? = some nm → resolve nm = none) →
      dictGet st.instrument_rename_dict x = none) := by
  refine ⟨?_, ?_, ?_, ?_⟩
  · intro name fam
    constructor
    · intro h
      unfold resolve at h
      cases hf : instrument_swap_map.find? (fun p => strIn p.1 name) with
      | none => rw [hf] at h; cases h
      | some pr =>
        rw [hf] at h
        injection h with h1
        subst h1
        rcases List.find?_eq_some.mp hf with ⟨hpr, pre, post, heq, hpre⟩
        refine ⟨pr.1, pre, post, heq, (strIn_iff _ _).mp hpr, ?_⟩
        intro q hq hinf
        have hb := hpre q hq
        rw [← strIn_iff] at hinf
        simp [hinf] at hb
    · rintro ⟨pat, pre, post, heq, hinf, hpre⟩
      unfold resolve
      have hfind : instrument_swap_map.find? (fun p => strIn p.1 name)
          = some (pat, fam) := by
        apply List.find?_eq_some.mpr
        refine ⟨(strIn_iff _ _).mpr hinf, pre, post, heq, ?_⟩
        intro a ha
        have := hpre a ha
        rw [← strIn_iff] at this
        simpa using this
      rw [hfind]
      rfl
  · intro name
    constructor
    · intro h q hq hinf
      unfold resolve at h
      cases hf : instrument_swap_map.find? (fun p => strIn p.1 name) with
      | some pr => rw [hf] at h; cases h
      | none =>
        have := List.find?_eq_none.mp hf q hq
        rw [← strIn_iff] at hinf
        exact this hinf
    · intro h
      unfold resolve
      have hf : instrument_swap_map.find? (fun p => strIn p.1 name) = none := by
        apply List.find?_eq_none.mpr
        intro q hq
        have := h q hq
        rw [← strIn_iff] at this
        simpa using this
      rw [hf]
      rfl
  · intro parts st x hok habs
    have hfac := (processScoreParts_ok_eq parts emptyState st hok).1
    have hd : st.part_rename_dict = (processLabels (partPairs parts) [] []).1 :=
      congrArg Prod.fst hfac
    rw [hd]
    rw [processLabels_dictGet_of_none]
    · rfl
    · intro pr hpr hprx
      rcases List.mem_flatMap.mp hpr with ⟨sp, hsp, hmem⟩
      rcases List.mem_map.mp hmem with ⟨nm, hnm, hpr2⟩
      rw [← hpr2] at hprx ⊢
      exact habs sp hsp hprx nm hnm
  · intro parts st x hok habs
    have hfac := (processScoreParts_ok_eq parts emptyState st hok).2
    have hd : st.instrument_rename_dict = (processLabels (instPairs parts) [] []).1 :=
      congrArg Prod.fst hfac
    rw [hd]
    rw [processLabels_dictGet_of_none]
    · rfl
    · intro pr hpr hprx
      rcases List.mem_flatMap.mp hpr with ⟨sp, hsp, hmem⟩
      rcases List.mem_filterMap.mp hmem with ⟨si, hsi, hopt⟩
      cases hh : si.instrumentNames.head? with
      | none => rw [hh] at hopt; cases hopt
      | some nm =>
        rw [hh] at hopt
        injection hopt with h2
        rw [← h2] at hprx ⊢
        exact habs sp hsp si hsi hprx nm hh
theorem resolve_none_of_findGenericName_none (name : String) (c : Counter)
    (h : findGenericName name c = none) : resolve name = none := by
  unfold findGenericName at h
  unfold resolve
  cases hf : instrument_swap_map.find? (fun p => strIn p.1 name) with
  | none => rfl
  | some pr => rw [hf] at h; cases h

theorem processLabels_fst_eq_foldl (pairs : List (String × String))
    (d : RenameDict) (c : Counter) :
    (processLabels pairs d c).1 =
      (planList pairs c).foldl (fun d e => dictInsert d e.1 e.2) d := by
  induction pairs generalizing d c with
  | nil => rfl
  | cons pr rest ih =>
    simp only [processLabels, planList]
    cases hg : findGenericName pr.2 c with
    | some rc =>
      simp only [List.foldl_cons]
      exact ih _ _
    | none => exact ih _ _

theorem famNames_eq (pairs : List (String × String)) (c : Counter) (fam : String) :
    famNames pairs c fam =
      (List.range (countFam pairs fam)).map
        (fun k => fam ++ " " ++ Nat.repr (cGet c fam + k + 1)) := by
  induction pairs generalizing c with
  | nil => rfl
  | cons pr rest ih =>
    cases hg : findGenericName pr.2 c with
    | none =>
      have hr : resolve pr.2 = none := resolve_none_of_findGenericName_none pr.2 c hg
      have hcount : countFam (pr :: rest) fam = countFam rest fam := by
        simp [countFam, List.filter_cons, hr]
      rw [hcount]
      have hstep : famNames (pr :: rest) c fam = famNames rest c fam := by
        simp only [famNames, planList, hg]
      rw [hstep]
      exact ih c
    | some rc =>
      obtain ⟨prr, hfind, hres, hrc1, hrc2⟩ := findGenericName_some pr.2 c rc hg
      by_cases hfam : prr.2 = fam
      · subst hfam
        have hcount : countFam (pr :: rest) prr.2 = countFam rest prr.2 + 1 := by
          simp [countFam, List.filter_cons, hres]
        have hstep : famNames (pr :: rest) c prr.2 =
            (prr.2 ++ " " ++ Nat.repr (cGet (cInc c prr.2) prr.2)) ::
              famNames rest (cInc c prr.2) prr.2 := by
          simp only [famNames, famDictNames, planList, hg, List.filterMap_cons,
            hrc1, hrc2, hres]
          simp
        rw [hstep, hcount, List.range_succ_eq_map, List.map_cons, List.map_map,
          cGet_cInc_self]
        refine List.cons_eq_cons.mpr ⟨rfl, ?_⟩
        rw [ih (cInc c prr.2), cGet_cInc_self]
        apply List.map_congr_left
        intro k hk
        simp only [Function.comp]
        rw [show cGet c prr.2 + 1 + k + 1 = cGet c prr.2 + Nat.succ k + 1 by omega]
      · have hcount : countFam (pr :: rest) fam = countFam rest fam := by
          simp [countFam, List.filter_cons, hres, hfam]
        have hstep : famNames (pr :: rest) c fam = famNames rest (cInc c prr.2) fam := by
          simp only [famNames, famDictNames, planList, hg, List.filterMap_cons,
            hrc1, hrc2, hres]
          rw [if_neg (by simp [hfam])]
        rw [hstep, hcount, ih (cInc c prr.2), cGet_cInc_ne c prr.2 fam hfam]


/-! ### C1 -/

/-- C1: resolution scans the table in insertion order and returns the
canonical family of the first raw pattern occurring as a contiguous
substring of the raw name; when no pattern is a substring it returns no
match, and such an entity is then absent from both rename plans. -/
theorem c1_resolution : 
    (∀ name fam, resolve name = some fam ↔
      ∃ pat pre post, instrument_swap_map = pre ++ (pat, fam) :: post ∧
        List.IsInfix pat.data name.data ∧
        ∀ q ∈ pre, ¬ List.IsInfix q.1.data name.data) ∧
    (∀ name, resolve name = none ↔
      ∀ q ∈ instrument_swap_map, ¬ List.IsInfix q.1.data name.data) ∧
    (∀ parts st x, processScoreParts parts emptyState = .ok st →
      (∀ sp ∈ parts, sp.id = x → ∀ nm ∈ sp.partNames, resolve nm = none) →
      dictGet st.part_rename_dict x = none) ∧
    (∀ parts st x, processScoreParts parts emptyState = .ok st →
      (∀ sp ∈ parts, ∀ si ∈ sp.scoreInstruments, si.id = x →
        ∀ nm, si.instrumentNames.head? = some nm → resolve nm = none) →
      dictGet st.instrument_rename_dict x = none) :=
  c1_first_match

/-- C1 witness: a part labeled "Zzz" (no table pattern is a substring of it)
is absent from the part rename plan. -/
theorem c1_witness : dictGet emptyState.part_rename_dict "P1" = none := by
  apply c1_resolution.2.2.1 [⟨"P1", ["Zzz"], []⟩] emptyState "P1" (by rfl)
  intro sp hsp hid nm hnm
  rcases List.mem_singleton.mp hsp with rfl
  rcases List.mem_singleton.mp hnm with rfl
  rfl

/-! ### C2 -/

/-- C2: discovery numbers entities per family in traversal order — the
entities resolving to a family get the proposed names "<family> 1",
"<family> 2", ... in document order — and the part and instrument plans and
counters are computed from their own label streams alone, so parts and
instruments are numbered in two independent counter namespaces. -/
theorem c2_numbering :
    (∀ parts st, processScoreParts parts emptyState = .ok st →
      (st.part_rename_dict, st.part_counter) =
        processLabels (partPairs parts) [] [] ∧
      (st.instrument_rename_dict, st.instrument_counter) =
        processLabels (instPairs parts) [] []) ∧
    (∀ pairs d c, (processLabels pairs d c).1 =
      (planList pairs c).foldl (fun d e => dictInsert d e.1 e.2) d) ∧
    (∀ pairs fam, famNames pairs [] fam =
      (List.range (countFam pairs fam)).map
        (fun k => fam ++ " " ++ Nat.repr (k + 1))) := by
  refine ⟨?_, processLabels_fst_eq_foldl, ?_⟩
  · intro parts st h
    exact processScoreParts_ok_eq parts emptyState st h
  · intro pairs fam
    have h := famNames_eq pairs [] fam
    simpa only [cGet, Nat.zero_add] using h

/-- C2 witness: the factorization applied to the end-to-end example's parts. -/
theorem c2_witness :
    (c9state.part_rename_dict, c9state.part_counter) =
      processLabels (partPairs c9parts) [] [] :=
  (c2_numbering.1 c9parts c9state (by rfl)).1

/-! ### Lemmas and theorems: errors and frame of discovery and apply -/

/-! C10 machinery -/

theorem processInstruments_error_attr (instrs : List ScoreInstrument)
    (d : RenameDict) (c : Counter) (e : PyError)
    (h : processInstruments instrs d c = .error e) : e = .attributeError := by
  induction instrs generalizing d c with
  | nil => simp only [processInstruments] at h; cases h
  | cons si rest ih =>
    cases hh : si.instrumentNames.head? with
    | none =>
      simp only [processInstruments, hh] at h
      injection h with h1
      exact h1.symm
    | some nm =>
      cases hg : findGenericName nm c with
      | some rc =>
        simp only [processInstruments, hh, hg] at h
        exact ih _ _ h
      | none =>
        simp only [processInstruments, hh, hg] at h
        exact ih _ _ h

theorem processInstruments_missing (instrs : List ScoreInstrument)
    (d : RenameDict) (c : Counter) (si : ScoreInstrument)
    (hsi : si ∈ instrs) (hnil : si.instrumentNames = []) :
    processInstruments instrs d c = .error .attributeError := by
  induction instrs generalizing d c with
  | nil => cases hsi
  | cons si0 rest ih =>
    cases hh : si0.instrumentNames.head? with
    | none => simp only [processInstruments, hh]
    | some nm =>
      have hmem : si ∈ rest := by
        rcases List.mem_cons.mp hsi with rfl | hmem
        · rw [hnil] at hh; cases hh
        · exact hmem
      cases hg : findGenericName nm c with
      | some rc =>
        simp only [processInstruments, hh, hg]
        exact ih _ _ hmem
      | none =>
        simp only [processInstruments, hh, hg]
        exact ih _ _ hmem

/-- C10: a document containing a `score-instrument` with no
`instrument-name` child makes discovery fail with the `AttributeError`
raised when dereferencing `.text` on the missing child, rather than
skipping the entity. -/
theorem c10_missing_instrument_name :
    ∀ parts (st : DiscoverState) sp si, sp ∈ parts → si ∈ sp.scoreInstruments →
      si.instrumentNames = [] →
      processScoreParts parts st = .error .attributeError ∧
      ∀ doc : MusicDoc, doc.partList = some parts →
        find_generic_instrument_names doc st = .error .attributeError := by
  intro parts st sp si hsp hsi hnil
  have hmain : processScoreParts parts st = .error .attributeError := by
    induction parts generalizing st with
    | nil => cases hsp
    | cons sp0 rest ih =>
      rcases List.mem_cons.mp hsp with rfl | hmem
      · have herr := processInstruments_missing sp.scoreInstruments
          st.instrument_rename_dict st.instrument_counter si hsi hnil
        simp only [processScoreParts, herr]
      · cases hi : processInstruments sp0.scoreInstruments
            st.instrument_rename_dict st.instrument_counter with
        | error e =>
          have := processInstruments_error_attr _ _ _ _ hi
          subst this
          simp only [processScoreParts, hi]
        | ok ic =>
          simp only [processScoreParts, hi]
          exact ih _ hmem
  refine ⟨hmain, ?_⟩
  intro doc hdoc
  unfold find_generic_instrument_names
  rw [hdoc]
  exact hmain

/-- C10 witness: a concrete document with an instrument lacking the
`instrument-name` child. -/
theorem c10_witness :
    processScoreParts [⟨"P1", [], [⟨"I1", []⟩]⟩] emptyState
      = .error .attributeError :=
  (c10_missing_instrument_name [⟨"P1", [], [⟨"I1", []⟩]⟩] emptyState
    ⟨"P1", [], [⟨"I1", []⟩]⟩ ⟨"I1", []⟩ (by simp) (by simp) rfl).1
/-! C4 machinery -/

theorem renameTags_all_match (tags : List String) (rm : RenameMap)
    (h : ∀ t ∈ tags, t = rm.originalName) :
    renameTags tags rm = (tags.map (fun _ => rm.swapName), none) := by
  induction tags with
  | nil => rfl
  | cons t rest ih =>
    have ht : t = rm.originalName := h t (List.mem_cons_self _ _)
    simp only [renameTags, if_pos ht, List.map_cons]
    rw [ih (fun x hx => h x (List.mem_cons_of_mem _ hx))]

theorem renameTags_mismatch (t : String) (suf : List String) (rm : RenameMap)
    (ht : t ≠ rm.originalName) :
    renameTags (t :: suf) rm = (t :: suf, some .assertionError) := by
  simp only [renameTags, if_neg ht]

theorem renameElement_some_mismatch (d : RenameDict) (elemId : String)
    (rm : RenameMap) (t : String) (suf : List String)
    (hget : dictGet d elemId = some rm) (ht : t ≠ rm.originalName) :
    renameElement elemId (t :: suf) d = (t :: suf, some .assertionError) := by
  unfold renameElement
  rw [hget]
  exact renameTags_mismatch t suf rm ht

theorem renameElement_some_match (d : RenameDict) (elemId : String)
    (rm : RenameMap) (tags : List String)
    (hget : dictGet d elemId = some rm) (h : ∀ t ∈ tags, t = rm.originalName) :
    renameElement elemId tags d = (tags.map (fun _ => rm.swapName), none) := by
  unfold renameElement
  rw [hget]
  exact renameTags_all_match tags rm h

theorem renameTags_error_attr (tags : List String) (rm : RenameMap)
    (e : PyError) (h : (renameTags tags rm).2 = some e) : e = .assertionError := by
  induction tags with
  | nil => simp only [renameTags] at h; cases h
  | cons t rest ih =>
    by_cases ht : t = rm.originalName
    · simp only [renameTags, if_pos ht] at h
      exact ih h
    · simp only [renameTags, if_neg ht] at h
      injection h with h1
      exact h1.symm

theorem renameElement_error_attr (elemId : String) (tags : List String)
    (d : RenameDict) (e : PyError)
    (h : (renameElement elemId tags d).2 = some e) : e = .assertionError := by
  unfold renameElement at h
  cases hget : dictGet d elemId with
  | none => rw [hget] at h; cases h
  | some rm => rw [hget] at h; exact renameTags_error_attr tags rm e h

theorem renameScoreInstruments_error_attr (instrs : List ScoreInstrument)
    (idd : RenameDict) (e : PyError)
    (h : (renameScoreInstruments instrs idd).2 = some e) : e = .assertionError := by
  induction instrs with
  | nil => simp only [renameScoreInstruments] at h; cases h
  | cons si rest ih =>
    cases hr : renameElement si.id si.instrumentNames idd with
    | mk tags r2 =>
      cases r2 with
      | some e0 =>
        simp only [renameScoreInstruments, hr] at h
        injection h with h1
        rw [← h1]
        exact renameElement_error_attr _ _ _ _ (by rw [hr])
      | none =>
        cases hrr : renameScoreInstruments rest idd with
        | mk rest2 e2 =>
          simp only [renameScoreInstruments, hr, hrr] at h
          apply ih
          rw [hrr, h]

theorem renameScorePart_error_attr (sp : ScorePart) (pd idd : RenameDict)
    (e : PyError) (h : (renameScorePart sp pd idd).2 = some e) :
    e = .assertionError := by
  cases hr : renameElement sp.id sp.partNames pd with
  | mk tags r2 =>
    cases r2 with
    | some e0 =>
      simp only [renameScorePart, hr] at h
      injection h with h1
      rw [← h1]
      exact renameElement_error_attr _ _ _ _ (by rw [hr])
    | none =>
      cases hrr : renameScoreInstruments sp.scoreInstruments idd with
      | mk instrs e2 =>
        simp only [renameScorePart, hr, hrr] at h
        apply renameScoreInstruments_error_attr sp.scoreInstruments idd
        rw [hrr, h]

theorem renameScoreParts_mismatch (parts : List ScorePart)
    (pd idd : RenameDict) (sp : ScorePart) (rm : RenameMap)
    (t : String) (suf : List String)
    (hsp : sp ∈ parts) (hget : dictGet pd sp.id = some rm)
    (htags : sp.partNames = t :: suf) (ht : t ≠ rm.originalName) :
    (renameScoreParts parts pd idd).2 = some .assertionError := by
  induction parts with
  | nil => cases hsp
  | cons sp0 rest ih =>
    cases hr : renameScorePart sp0 pd idd with
    | mk sp2 r2 =>
      cases r2 with
      | some e =>
        have he := renameScorePart_error_attr sp0 pd idd e (by rw [hr])
        subst he
        simp only [renameScoreParts, hr]
      | none =>
        rcases List.mem_cons.mp hsp with rfl | hmem
        · exfalso
          have hmm : renameScorePart sp pd idd
              = ((t :: suf, some PyError.assertionError).1
                  |> fun tags => ⟨sp.id, tags, sp.scoreInstruments⟩,
                 some PyError.assertionError) := by
            simp only [renameScorePart, htags,
              renameElement_some_mismatch pd sp.id rm t suf hget ht]
          rw [hmm] at hr
          cases hr
        · cases hrr : renameScoreParts rest pd idd with
          | mk rest2 e2 =>
            simp only [renameScoreParts, hr, hrr]
            have := ih hmem
            rw [hrr] at this
            exact this

/-- C4: for an entity with a plan entry, if the live label differs from the
recorded original name the apply step fails with the `AssertionError` that
realizes ConsistencyError, leaves the label unmodified, and the error
propagates through `rename_instruments`; when the label matches, the field
is overwritten with the proposed name. -/
theorem c4_consistency :
    (∀ d elemId rm t suf, dictGet d elemId = some rm →
      t ≠ rm.originalName →
      renameElement elemId (t :: suf) d = (t :: suf, some PyError.assertionError)) ∧
    (∀ d elemId rm tags, dictGet d elemId = some rm →
      (∀ x ∈ tags, x = rm.originalName) →
      renameElement elemId tags d = (tags.map (fun _ => rm.swapName), none)) ∧
    (∀ parts pd idd sp rm t suf, sp ∈ parts →
      dictGet pd sp.id = some rm → sp.partNames = t :: suf →
      t ≠ rm.originalName →
      (renameScoreParts parts pd idd).2 = some PyError.assertionError) := by
  refine ⟨?_, ?_, ?_⟩
  · intro d elemId rm t suf hget ht
    exact renameElement_some_mismatch d elemId rm t suf hget ht
  · intro d elemId rm tags hget h
    exact renameElement_some_match d elemId rm tags hget h
  · intro parts pd idd sp rm t suf hsp hget htags ht
    exact renameScoreParts_mismatch parts pd idd sp rm t suf hsp hget htags ht

/-- C4 witness: a part whose live label "Oboe" differs from the recorded
original name "Flute" makes apply fail and leaves the label unchanged. -/
theorem c4_witness :
    renameElement "P1" ["Oboe"] [("P1", ⟨"Flute", "Flute 1"⟩)]
      = (["Oboe"], some PyError.assertionError) :=
  c4_consistency.1 [("P1", ⟨"Flute", "Flute 1"⟩)] "P1" ⟨"Flute", "Flute 1"⟩
    "Oboe" [] (by rfl) (by decide)
theorem renameElement_absent (elemId : String) (tags : List String)
    (d : RenameDict) (h : dictGet d elemId = none) :
    renameElement elemId tags d = (tags, none) := by
  unfold renameElement
  rw [h]

/-- The per-instrument frame relation of the apply phase. -/
theorem renameScoreInstruments_frame (instrs : List ScoreInstrument)
    (idd : RenameDict) :
    List.Forall₂ (fun si si2 =>
      si2.id = si.id ∧
      (dictGet idd si.id = none → si2.instrumentNames = si.instrumentNames))
      instrs (renameScoreInstruments instrs idd).1 := by
  induction instrs with
  | nil => exact List.Forall₂.nil
  | cons si rest ih =>
    cases hr : renameElement si.id si.instrumentNames idd with
    | mk tags r2 =>
      have habs : dictGet idd si.id = none → tags = si.instrumentNames := by
        intro hnone
        have := renameElement_absent si.id si.instrumentNames idd hnone
        rw [this] at hr
        injection hr with h1 h2
        exact h1.symm
      cases r2 with
      | some e =>
        have heq : renameScoreInstruments (si :: rest) idd
            = (⟨si.id, tags⟩ :: rest, some e) := by
          simp only [renameScoreInstruments, hr]
        rw [heq]
        exact List.Forall₂.cons ⟨rfl, habs⟩
          (List.forall₂_same.mpr (fun x hx => ⟨rfl, fun _ => rfl⟩))
      | none =>
        cases hrr : renameScoreInstruments rest idd with
        | mk rest2 e2 =>
          have heq : renameScoreInstruments (si :: rest) idd
              = (⟨si.id, tags⟩ :: rest2, e2) := by
            simp only [renameScoreInstruments, hr, hrr]
          rw [heq]
          refine List.Forall₂.cons ⟨rfl, habs⟩ ?_
          have hresult := ih
          rw [hrr] at hresult
          exact hresult

/-- The per-part frame relation of the apply phase. -/
theorem renameScorePart_frame (sp : ScorePart) (pd idd : RenameDict) :
    (renameScorePart sp pd idd).1.id = sp.id ∧
    (dictGet pd sp.id = none →
      (renameScorePart sp pd idd).1.partNames = sp.partNames) ∧
    List.Forall₂ (fun si si2 =>
      si2.id = si.id ∧
      (dictGet idd si.id = none → si2.instrumentNames = si.instrumentNames))
      sp.scoreInstruments (renameScorePart sp pd idd).1.scoreInstruments := by
  cases hr : renameElement sp.id sp.partNames pd with
  | mk tags r2 =>
    have habs : dictGet pd sp.id = none → tags = sp.partNames := by
      intro hnone
      have := renameElement_absent sp.id sp.partNames pd hnone
      rw [this] at hr
      injection hr with h1 h2
      exact h1.symm
    cases r2 with
    | some e =>
      have heq : renameScorePart sp pd idd
          = (⟨sp.id, tags, sp.scoreInstruments⟩, some e) := by
        simp only [renameScorePart, hr]
      rw [heq]
      exact ⟨rfl, habs,
        List.forall₂_same.mpr (fun x hx => ⟨rfl, fun _ => rfl⟩)⟩
    | none =>
      cases hrr : renameScoreInstruments sp.scoreInstruments idd with
      | mk instrs2 e2 =>
        have heq : renameScorePart sp pd idd
            = (⟨sp.id, tags, instrs2⟩, e2) := by
          simp only [renameScorePart, hr, hrr]
        rw [heq]
        refine ⟨rfl, habs, ?_⟩
        have hresult := renameScoreInstruments_frame sp.scoreInstruments idd
        rw [hrr] at hresult
        exact hresult

/-- C7: apply preserves the document structure and identifiers, and any
part or instrument whose id has no entry in the corresponding rename plan
keeps its label fields unchanged (in particular, entities whose raw name
matched no table entry, which discovery left out of the plans). -/
theorem c7_frame :
    ∀ parts (pd idd : RenameDict),
      List.Forall₂ (fun sp sp2 =>
        sp2.id = sp.id ∧
        (dictGet pd sp.id = none → sp2.partNames = sp.partNames) ∧
        List.Forall₂ (fun si si2 =>
          si2.id = si.id ∧
          (dictGet idd si.id = none → si2.instrumentNames = si.instrumentNames))
          sp.scoreInstruments sp2.scoreInstruments)
        parts (renameScoreParts parts pd idd).1 := by
  intro parts pd idd
  induction parts with
  | nil => exact List.Forall₂.nil
  | cons sp rest ih =>
    cases hr : renameScorePart sp pd idd with
    | mk sp2 r2 =>
      have hframe := renameScorePart_frame sp pd idd
      rw [hr] at hframe
      cases r2 with
      | some e =>
        have heq : renameScoreParts (sp :: rest) pd idd = (sp2 :: rest, some e) := by
          simp only [renameScoreParts, hr]
        rw [heq]
        exact List.Forall₂.cons hframe
          (List.forall₂_same.mpr (fun x hx =>
            ⟨rfl, fun _ => rfl,
              List.forall₂_same.mpr (fun y hy => ⟨rfl, fun _ => rfl⟩)⟩))
      | none =>
        cases hrr : renameScoreParts rest pd idd with
        | mk rest2 e2 =>
          have heq : renameScoreParts (sp :: rest) pd idd = (sp2 :: rest2, e2) := by
            simp only [renameScoreParts, hr, hrr]
          rw [heq]
          refine List.Forall₂.cons hframe ?_
          rw [hrr] at ih
          exact ih

/-- C7 witness: a part absent from both plans passes through apply
unchanged. -/
theorem c7_witness :
    List.Forall₂ (fun (sp sp2 : ScorePart) =>
      sp2.id = sp.id ∧
      (dictGet [] sp.id = none → sp2.partNames = sp.partNames) ∧
      List.Forall₂ (fun (si si2 : ScoreInstrument) =>
        si2.id = si.id ∧
        (dictGet [] si.id = none → si2.instrumentNames = si.instrumentNames))
        sp.scoreInstruments sp2.scoreInstruments)
      [⟨"P1", ["Custom Name"], []⟩]
      (renameScoreParts [⟨"P1", ["Custom Name"], []⟩] [] []).1 :=
  c7_frame [⟨"P1", ["Custom Name"], []⟩] [] []

/-! ### C6 -/

/-- C6 counterexample: a document whose `part-list` is present but contains
no parts (so "no parts are found") is processed without any error —
normalization proceeds as a no-op instead of failing. -/
theorem c6_counterexample :
    process_xml ⟨some []⟩ = .ok ⟨some []⟩ := by rfl

/-- C6 amended: normalization fails immediately (with the `AttributeError`
that realizes the MalformedDocument error) exactly when the `part-list`
element itself is missing; a present but empty `part-list` (no parts found)
proceeds without error and leaves the document unchanged. -/
theorem c6_missing_partlist :
    process_xml ⟨none⟩ = .error .attributeError ∧
    find_generic_instrument_names ⟨none⟩ emptyState = .error .attributeError ∧
    process_xml ⟨some []⟩ = .ok ⟨some []⟩ :=
  ⟨rfl, rfl, rfl⟩

/-! ### C9 -/

/-- C9: on a document with parts labeled "Violins 1", "Violins 2" and
"Harp", discovery resolves the violin parts to the two distinct families
"Violins 1" and "Violins 2" (not numbered against each other) and "Harp" to
family "Harp", each with count 1, and the whole normalization returns the
document unchanged. -/
theorem c9_end_to_end :
    find_generic_instrument_names c9doc emptyState = .ok
      ⟨[("P1", ⟨"Violins 1", "Violins 1 1"⟩),
        ("P2", ⟨"Violins 2", "Violins 2 1"⟩),
        ("P3", ⟨"Harp", "Harp 1"⟩)], [],
       [("Violins 1", 1), ("Violins 2", 1), ("Harp", 1)], []⟩ ∧
    process_xml c9doc = .ok c9doc :=
  ⟨rfl, rfl⟩

/-! ### C5 -/

/-- C5 counterexample: "French Horn" appears as a canonical family value in
the table, yet resolving "French Horn" against the table matches nothing —
so not every canonical family name is itself a valid raw entry. -/
theorem c5_counterexample :
    "French Horn" ∈ tableValues ∧ resolve "French Horn" = none :=
  ⟨by decide, by rfl⟩

/-- C5 amended: every canonical family value resolves to itself EXCEPT
"French Horn" (which matches no entry at all) and "Violas", "Cellos",
"Basses" and the five "Solo <X>" families (which match a different, earlier
entry); so a second normalization run is a no-op only for the other
canonical names. -/
theorem c5_value_resolution :
    (∀ v ∈ tableValues, v ∉ nonFixpointValues → resolve v = some v) ∧
    resolve "French Horn" = none ∧
    resolve "Violas" = some "Viola" ∧
    resolve "Cellos" = some "Cello" ∧
    resolve "Basses" = some "Bass" ∧
    resolve "Solo Violin 1" = some "Violin 1" ∧
    resolve "Solo Violin 2" = some "Violin 2" ∧
    resolve "Solo Viola" = some "Viola" ∧
    resolve "Solo Cello" = some "Cello" ∧
    resolve "Solo Bass" = some "Bass" := by
  constructor
  · decide
  · exact ⟨rfl, rfl, rfl, rfl, rfl, rfl, rfl, rfl, rfl⟩

/-- C5 witness: the amended theorem applied at the concrete value "Harp". -/
theorem c5_witness : resolve "Harp" = some "Harp" :=
  c5_value_resolution.1 "Harp" (by decide) (by decide)

/-! ### Lemmas and theorems: the cleanup pass (C3, C8) -/

/-! String machinery for the numbered-name format -/

theorem lastSepAux (u : List Char) :
    ∀ (v a b : List Char), spaceChar ∉ u → spaceChar ∉ v →
      u ++ spaceChar :: a = v ++ spaceChar :: b → u = v ∧ a = b := by
  induction u with
  | nil =>
    intro v a b _ hv h
    cases v with
    | nil =>
      simp only [List.nil_append] at h
      injection h with h1 h2
      exact ⟨rfl, h2⟩
    | cons c v2 =>
      simp only [List.nil_append, List.cons_append] at h
      injection h with h1 h2
      exfalso
      apply hv
      rw [h1]
      exact List.mem_cons_self _ _
  | cons c u2 ih =>
    intro v a b hu hv h
    cases v with
    | nil =>
      simp only [List.cons_append, List.nil_append] at h
      injection h with h1 h2
      exfalso
      apply hu
      rw [← h1]
      exact List.mem_cons_self _ _
    | cons c2 v2 =>
      simp only [List.cons_append] at h
      injection h with h1 h2
      have hu2 : spaceChar ∉ u2 := fun hx => hu (List.mem_cons_of_mem _ hx)
      have hv2 : spaceChar ∉ v2 := fun hx => hv (List.mem_cons_of_mem _ hx)
      obtain ⟨he, ha⟩ := ih v2 a b hu2 hv2 h2
      exact ⟨by rw [h1, he], ha⟩

theorem digitChar_ne_space (m : Nat) : Nat.digitChar m ≠ spaceChar := by
  unfold Nat.digitChar
  rcases Nat.lt_or_ge m 16 with h16 | h16
  · interval_cases m <;> decide
  · iterate 16 rw [if_neg (by omega)]
    decide

theorem toDigitsCore_chars (b : Nat) (fuel : Nat) :
    ∀ (n : Nat) (ds : List Char) (c : Char),
      c ∈ Nat.toDigitsCore b fuel n ds → c ∈ ds ∨ ∃ m, c = Nat.digitChar m := by
  induction fuel with
  | zero =>
    intro n ds c h
    simp only [Nat.toDigitsCore] at h
    exact Or.inl h
  | succ fuel ih =>
    intro n ds c h
    simp only [Nat.toDigitsCore] at h
    by_cases hb : n / b = 0
    · rw [if_pos hb] at h
      rcases List.mem_cons.mp h with rfl | hmem
      · exact Or.inr ⟨n % b, rfl⟩
      · exact Or.inl hmem
    · rw [if_neg hb] at h
      rcases ih (n / b) (Nat.digitChar (n % b) :: ds) c h with hmem | hd
      · rcases List.mem_cons.mp hmem with rfl | hmem2
        · exact Or.inr ⟨n % b, rfl⟩
        · exact Or.inl hmem2
      · exact Or.inr hd

theorem repr_no_space (n : Nat) : spaceChar ∉ (Nat.repr n).data := by
  intro hmem
  have hdata : (Nat.repr n).data = Nat.toDigitsCore 10 (n + 1) n [] := rfl
  rw [hdata] at hmem
  rcases toDigitsCore_chars 10 (n + 1) n [] spaceChar hmem with h | ⟨m, hm⟩
  · cases h
  · exact digitChar_ne_space m hm.symm

theorem toDigitsCore_ne_nil_of_acc (b : Nat) (fuel : Nat) :
    ∀ (n : Nat) (ds : List Char), ds ≠ [] → Nat.toDigitsCore b fuel n ds ≠ [] := by
  induction fuel with
  | zero =>
    intro n ds hds
    simpa only [Nat.toDigitsCore] using hds
  | succ fuel ih =>
    intro n ds hds
    simp only [Nat.toDigitsCore]
    by_cases hb : n / b = 0
    · rw [if_pos hb]
      exact List.cons_ne_nil _ _
    · rw [if_neg hb]
      exact ih (n / b) (Nat.digitChar (n % b) :: ds) (List.cons_ne_nil _ _)

theorem repr_ne_nil (n : Nat) : (Nat.repr n).data ≠ [] := by
  have hdata : (Nat.repr n).data = Nat.toDigitsCore 10 (n + 1) n [] := rfl
  rw [hdata]
  simp only [Nat.toDigitsCore]
  by_cases hb : n / 10 = 0
  · rw [if_pos hb]
    exact List.cons_ne_nil _ _
  · rw [if_neg hb]
    exact toDigitsCore_ne_nil_of_acc 10 n (n / 10)
      (Nat.digitChar (n % 10) :: []) (List.cons_ne_nil _ _)

theorem space_data : (" " : String).data = [spaceChar] := by decide

theorem space_one_data : (" 1" : String).data = [spaceChar, oneChar] := by decide

theorem one_data : ("1" : String).data = [oneChar] := by decide

/-- The key collision analysis: a numbered name `"<f> <k>"` equals a
numbered name `"<g> 1"` only when the families agree and `k`'s decimal
representation is `"1"`. -/
theorem numbered_eq_numbered_one (f g : String) (k : Nat)
    (h : f ++ " " ++ Nat.repr k = g ++ " 1") : f = g ∧ Nat.repr k = "1" := by
  have hdata := congrArg String.data h
  simp only [String.data_append, space_data, space_one_data] at hdata
  have hshape : f.data ++ spaceChar :: (Nat.repr k).data
      = g.data ++ spaceChar :: [oneChar] := by
    rw [List.append_assoc] at hdata
    exact hdata
  have hrev := congrArg List.reverse hshape
  simp only [List.reverse_append, List.reverse_cons] at hrev
  have hrev2 : (Nat.repr k).data.reverse ++ spaceChar :: f.data.reverse
      = [oneChar].reverse ++ spaceChar :: g.data.reverse := by
    simpa [List.append_assoc] using hrev
  have hnos1 : spaceChar ∉ (Nat.repr k).data.reverse := by
    intro hx
    exact repr_no_space k (List.mem_reverse.mp hx)
  have hnos2 : spaceChar ∉ [oneChar].reverse := by decide
  obtain ⟨h1, h2⟩ := lastSepAux _ _ _ _ hnos1 hnos2 hrev2
  constructor
  · apply String.ext
    have := congrArg List.reverse h2
    simpa using this
  · apply String.ext
    rw [one_data]
    have := congrArg List.reverse h1
    simpa using this

theorem numbered_one_eq (f : String) : f ++ " " ++ Nat.repr 1 = f ++ " 1" := by
  apply String.ext
  rw [String.data_append, String.data_append, List.append_assoc]
  exact congrArg (fun l => f.data ++ l) (by decide)
/-! Counter invariants -/

theorem cInc_keys_any_true (c : Counter) (k : String)
    (h : c.any (fun p => p.1 = k) = true) :
    (cInc c k).map Prod.fst = c.map Prod.fst := by
  unfold cInc
  rw [if_pos h, List.map_map]
  apply List.map_congr_left
  intro p hp
  by_cases hk : p.1 = k
  · simp [Function.comp, hk]
  · simp [Function.comp, hk]

theorem cInc_keys_any_false (c : Counter) (k : String)
    (h : ¬ c.any (fun p => p.1 = k) = true) :
    (cInc c k).map Prod.fst = c.map Prod.fst ++ [k] := by
  unfold cInc
  rw [if_neg h, List.map_append]
  rfl

theorem cInc_entry (c : Counter) (k : String) (p : String × Nat)
    (hp : p ∈ cInc c k) : (∃ q ∈ c, p.1 = q.1 ∧ (p.2 = q.2 ∨ p.2 = q.2 + 1)) ∨ p = (k, 1) := by
  unfold cInc at hp
  split at hp
  · rcases List.mem_map.mp hp with ⟨q, hq, hpq⟩
    left
    refine ⟨q, hq, ?_⟩
    by_cases hk : q.1 = k
    · rw [if_pos hk] at hpq
      rw [← hpq]
      exact ⟨rfl, Or.inr rfl⟩
    · rw [if_neg hk] at hpq
      rw [← hpq]
      exact ⟨rfl, Or.inl rfl⟩
  · rcases List.mem_append.mp hp with hq | hq
    · left
      exact ⟨p, hq, rfl, Or.inl rfl⟩
    · right
      exact List.mem_singleton.mp hq

theorem counterInv_cInc (c : Counter) (k : String)
    (hc : CounterInv c) (hk : k ∈ tableValues) : CounterInv (cInc c k) := by
  obtain ⟨hnodup, hpos, hvals⟩ := hc
  refine ⟨?_, ?_, ?_⟩
  · by_cases hany : c.any (fun p => p.1 = k) = true
    · rw [cInc_keys_any_true c k hany]
      exact hnodup
    · rw [cInc_keys_any_false c k hany]
      rw [List.nodup_append]
      refine ⟨hnodup, List.nodup_singleton k, ?_⟩
      intro a ha hb
      rcases List.mem_singleton.mp hb with rfl
      simp only [List.any_eq_true, decide_eq_true_eq, not_exists, not_and] at hany
      rcases List.mem_map.mp ha with ⟨q, hq, hqa⟩
      exact hany q hq hqa
  · intro p hp
    rcases cInc_entry c k p hp with ⟨q, hq, _, hsum⟩ | heq
    · rcases hsum with h2 | h2
      · rw [h2]; exact hpos q hq
      · rw [h2]; omega
    · rw [heq]
  · intro p hp
    rcases cInc_entry c k p hp with ⟨q, hq, h1, _⟩ | heq
    · rw [h1]; exact hvals q hq
    · rw [heq]; exact hk

theorem counterInv_processLabels (pairs : List (String × String))
    (d : RenameDict) (c : Counter) (hc : CounterInv c) :
    CounterInv (processLabels pairs d c).2 := by
  induction pairs generalizing d c with
  | nil => exact hc
  | cons pr rest ih =>
    simp only [processLabels]
    cases hg : findGenericName pr.2 c with
    | none => exact ih _ _ hc
    | some rc =>
      obtain ⟨prr, hfind, hres, hrc1, hrc2⟩ := findGenericName_some pr.2 c rc hg
      apply ih
      rw [hrc2]
      exact counterInv_cInc c prr.2 hc (resolve_mem_tableValues pr.2 prr.2 hres)

theorem counterInv_empty : CounterInv [] := by
  refine ⟨List.nodup_nil, ?_, ?_⟩ <;> intro p hp <;> cases hp

theorem cGet_of_mem_nodup (c : Counter) (g : String) (m : Nat)
    (hnodup : (c.map Prod.fst).Nodup) (hmem : (g, m) ∈ c) : cGet c g = m := by
  induction c with
  | nil => cases hmem
  | cons hd tl ih =>
    simp only [List.map_cons, List.nodup_cons] at hnodup
    rcases List.mem_cons.mp hmem with heq | hmem2
    · rw [← heq]
      simp [cGet]
    · have hne : hd.1 ≠ g := by
        intro hh
        apply hnodup.1
        rw [hh]
        exact List.mem_map_of_mem Prod.fst hmem2
      simp only [cGet, if_neg hne]
      exact ih hnodup.2 hmem2

theorem counter_split (c : Counter) (g : String) (m : Nat)
    (hnodup : (c.map Prod.fst).Nodup) (hget : cGet c g = m) (hpos : 1 ≤ m) :
    ∃ c1 c2, c = c1 ++ (g, m) :: c2 ∧
      (∀ p ∈ c1, p.1 ≠ g) ∧ (∀ p ∈ c2, p.1 ≠ g) := by
  induction c with
  | nil => simp only [cGet] at hget; omega
  | cons hd tl ih =>
    simp only [List.map_cons, List.nodup_cons] at hnodup
    by_cases hk : hd.1 = g
    · refine ⟨[], tl, ?_, ?_, ?_⟩
      · simp only [cGet, if_pos hk] at hget
        have : hd = (g, m) := by
          rcases hd with ⟨a, b⟩
          simp only at hk hget
          rw [hk, hget]
        rw [this]
        rfl
      · intro p hp; cases hp
      · intro p hp hpg
        apply hnodup.1
        rw [hk, ← hpg]
        exact List.mem_map_of_mem Prod.fst hp
    · simp only [cGet, if_neg hk] at hget
      obtain ⟨c1, c2, heq, h1, h2⟩ := ih hnodup.2 hget
      refine ⟨hd :: c1, c2, by rw [heq]; rfl, ?_, h2⟩
      intro p hp
      rcases List.mem_cons.mp hp with rfl | hp2
      · exact hk
      · exact h1 p hp2
/-! Cleanup machinery -/

/-- No two canonical family values differ by a trailing " 1". -/
theorem tableValues_ne_append_one :
    ∀ v ∈ tableValues, ∀ g ∈ tableValues, v ≠ g ++ " 1" := by decide

theorem cleanName_nil (s : String) : cleanName [] s = s := rfl

theorem cleanName_cons (p : String × Nat) (c : Counter) (s : String) :
    cleanName (p :: c) s =
      cleanName c (if p.2 = 1 then (if s = p.1 ++ " 1" then p.1 else s) else s) := rfl

theorem cleanName_append (c1 c2 : Counter) (s : String) :
    cleanName (c1 ++ c2) s = cleanName c2 (cleanName c1 s) :=
  List.foldl_append _ _ _ _

theorem cleanName_no_match (c : Counter) (s : String)
    (h : ∀ p ∈ c, ¬(p.2 = 1 ∧ s = p.1 ++ " 1")) : cleanName c s = s := by
  induction c with
  | nil => rfl
  | cons p c2 ih =>
    rw [cleanName_cons]
    have hp := h p (List.mem_cons_self _ _)
    have hstep : (if p.2 = 1 then (if s = p.1 ++ " 1" then p.1 else s) else s) = s := by
      by_cases h1 : p.2 = 1
      · rw [if_pos h1]
        by_cases h2 : s = p.1 ++ " 1"
        · exact absurd ⟨h1, h2⟩ hp
        · rw [if_neg h2]
      · rw [if_neg h1]
    rw [hstep]
    exact ih (fun q hq => h q (List.mem_cons_of_mem _ hq))

theorem cleanName_bare (c : Counter) (f : String)
    (hkeys : ∀ p ∈ c, p.1 ∈ tableValues) (hf : f ∈ tableValues) :
    cleanName c f = f := by
  apply cleanName_no_match
  intro p hp hand
  exact tableValues_ne_append_one f hf p.1 (hkeys p hp) hand.2

theorem cleanName_result (c : Counter) (s : String)
    (hkeys : ∀ p ∈ c, p.1 ∈ tableValues) :
    cleanName c s = s ∨ cleanName c s ∈ tableValues := by
  induction c generalizing s with
  | nil => exact Or.inl rfl
  | cons p c2 ih =>
    have hkeys2 : ∀ q ∈ c2, q.1 ∈ tableValues :=
      fun q hq => hkeys q (List.mem_cons_of_mem _ hq)
    rw [cleanName_cons]
    by_cases h1 : p.2 = 1
    · by_cases h2 : s = p.1 ++ " 1"
      · rw [if_pos h1, if_pos h2]
        right
        have hp1 : p.1 ∈ tableValues := hkeys p (List.mem_cons_self _ _)
        rw [cleanName_bare c2 p.1 hkeys2 hp1]
        exact hp1
      · rw [if_pos h1, if_neg h2]
        exact ih s hkeys2
    · rw [if_neg h1]
      exact ih s hkeys2

theorem cleanName_idem (c : Counter) (s : String)
    (hkeys : ∀ p ∈ c, p.1 ∈ tableValues) :
    cleanName c (cleanName c s) = cleanName c s := by
  rcases cleanName_result c s hkeys with h | h
  · rw [h, h]
  · exact cleanName_bare c _ hkeys h

theorem cleanName_numbered_ge2 (c : Counter) (f : String) (k : Nat)
    (hc : CounterInv c) (hge : 2 ≤ cGet c f) :
    cleanName c (f ++ " " ++ Nat.repr k) = f ++ " " ++ Nat.repr k := by
  apply cleanName_no_match
  intro p hp hand
  obtain ⟨h1, h2⟩ := hand
  obtain ⟨hf, _⟩ := numbered_eq_numbered_one f p.1 k h2
  subst hf
  have hg : cGet c p.1 = p.2 := cGet_of_mem_nodup c p.1 p.2 hc.1 hp
  rw [hg] at hge
  omega
theorem cleanName_numbered_one (c : Counter) (f : String)
    (hc : CounterInv c) (hone : cGet c f = 1) :
    cleanName c (f ++ " " ++ Nat.repr 1) = f := by
  obtain ⟨c1, c2, heq, h1, h2⟩ := counter_split c f 1 hc.1 hone (le_refl 1)
  subst heq
  rw [cleanName_append]
  have hstep1 : cleanName c1 (f ++ " " ++ Nat.repr 1) = f ++ " " ++ Nat.repr 1 := by
    apply cleanName_no_match
    intro p hp hand
    obtain ⟨hf, _⟩ := numbered_eq_numbered_one f p.1 1 hand.2
    exact h1 p hp hf.symm
  rw [hstep1, cleanName_cons, if_pos rfl, if_pos (numbered_one_eq f)]
  have hfval : f ∈ tableValues :=
    hc.2.2 (f, 1) (List.mem_append_right _ (List.mem_cons_self _ _))
  exact cleanName_bare c2 f
    (fun p hp => hc.2.2 p (List.mem_append_right _ (List.mem_cons_of_mem _ hp)))
    hfval

theorem cleanupDict_eq_map (c : Counter) (d : RenameDict) :
    cleanupDict c d =
      d.map (fun e => (e.1, ⟨e.2.originalName, cleanName c e.2.swapName⟩)) := by
  induction c generalizing d with
  | nil =>
    simp only [cleanupDict, List.foldl_nil, cleanName_nil]
    exact (List.map_id d).symm
  | cons p c2 ih =>
    have hstep : cleanupDict (p :: c2) d = cleanupDict c2
        (if p.2 = 1 then
          d.map (fun e =>
            if e.2.swapName = p.1 ++ " 1" then (e.1, ⟨e.2.originalName, p.1⟩) else e)
        else d) := rfl
    rw [hstep]
    by_cases h1 : p.2 = 1
    · rw [if_pos h1, ih, List.map_map]
      apply List.map_congr_left
      intro e he
      simp only [Function.comp]
      by_cases h2 : e.2.swapName = p.1 ++ " 1"
      · rw [if_pos h2, cleanName_cons, if_pos h1, if_pos h2]
      · rw [if_neg h2, cleanName_cons, if_pos h1, if_neg h2]
    · rw [if_neg h1, ih]
      apply List.map_congr_left
      intro e he
      rw [cleanName_cons, if_neg h1]

theorem famDictNames_map_clean (d : RenameDict) (c : Counter) (fam : String) :
    famDictNames
      (d.map (fun e => (e.1, ⟨e.2.originalName, cleanName c e.2.swapName⟩))) fam
      = (famDictNames d fam).map (cleanName c) := by
  induction d with
  | nil => rfl
  | cons e d2 ih =>
    simp only [List.map_cons, famDictNames, List.filterMap_cons]
    by_cases hres : resolve e.2.originalName = some fam
    · rw [if_pos hres, if_pos hres]
      simp only [List.map_cons]
      exact congrArg (fun l => cleanName c e.2.swapName :: l) ih
    · rw [if_neg hres, if_neg hres]
      exact ih

theorem processLabels_counter_cGet (pairs : List (String × String)) :
    ∀ (d : RenameDict) (c : Counter) (fam : String),
      cGet (processLabels pairs d c).2 fam = cGet c fam + countFam pairs fam := by
  induction pairs with
  | nil =>
    intro d c fam
    simp [processLabels, countFam]
  | cons pr rest ih =>
    intro d c fam
    simp only [processLabels]
    cases hg : findGenericName pr.2 c with
    | none =>
      have hr : resolve pr.2 = none := resolve_none_of_findGenericName_none pr.2 c hg
      have hcount : countFam (pr :: rest) fam = countFam rest fam := by
        simp [countFam, List.filter_cons, hr]
      rw [hcount]
      exact ih d c fam
    | some rc =>
      obtain ⟨prr, hfind, hres, hrc1, hrc2⟩ := findGenericName_some pr.2 c rc hg
      rw [ih _ _ fam, hrc2]
      by_cases hfam : prr.2 = fam
      · subst hfam
        have hcount : countFam (pr :: rest) prr.2 = countFam rest prr.2 + 1 := by
          simp [countFam, List.filter_cons, hres]
        rw [hcount, cGet_cInc_self]
        omega
      · have hcount : countFam (pr :: rest) fam = countFam rest fam := by
          simp [countFam, List.filter_cons, hres, hfam]
        rw [hcount, cGet_cInc_ne c prr.2 fam hfam]
/-! Dictionary = plan list under unique ids -/

theorem planList_ids_sublist (pairs : List (String × String)) (c : Counter) :
    List.Sublist ((planList pairs c).map Prod.fst) (pairs.map Prod.fst) := by
  induction pairs generalizing c with
  | nil => exact List.Sublist.refl _
  | cons pr rest ih =>
    simp only [planList, List.map_cons]
    cases hg : findGenericName pr.2 c with
    | some rc =>
      simp only [List.map_cons]
      exact List.Sublist.cons₂ _ (ih _)
    | none =>
      exact List.Sublist.cons _ (ih _)

theorem foldl_dictInsert_fresh (es : List (String × RenameMap)) :
    ∀ (d : RenameDict), ((es.map Prod.fst).Nodup) →
      (∀ e ∈ es, ∀ p ∈ d, p.1 ≠ e.1) →
      es.foldl (fun d e => dictInsert d e.1 e.2) d = d ++ es := by
  induction es with
  | nil => intro d _ _; simp
  | cons e rest ih =>
    intro d hnodup hfresh
    simp only [List.map_cons, List.nodup_cons] at hnodup
    simp only [List.foldl_cons]
    rw [dictInsert_fresh d e.1 e.2
      (fun p hp => hfresh e (List.mem_cons_self _ _) p hp)]
    rw [ih (d ++ [(e.1, e.2)]) hnodup.2 ?_]
    · simp
    · intro e2 he2 p hp
      rcases List.mem_append.mp hp with hpd | hpe
      · exact hfresh e2 (List.mem_cons_of_mem _ he2) p hpd
      · rcases List.mem_singleton.mp hpe with rfl
        intro hh
        apply hnodup.1
        rw [hh]
        exact List.mem_map_of_mem Prod.fst he2

theorem processLabels_dict_eq_planList (pairs : List (String × String))
    (hnodup : (pairs.map Prod.fst).Nodup) :
    (processLabels pairs [] []).1 = planList pairs [] := by
  rw [processLabels_fst_eq_foldl]
  rw [foldl_dictInsert_fresh (planList pairs []) []
    ((planList_ids_sublist pairs []).nodup hnodup) (fun e he p hp => by cases hp)]
  simp

/-! The generic cleanup-after-discovery lemma -/

theorem cleanup_after_discovery (pairs : List (String × String))
    (hnodup : (pairs.map Prod.fst).Nodup) (fam : String) :
    (cGet (processLabels pairs [] []).2 fam = 1 →
      famDictNames
        (cleanupDict (processLabels pairs [] []).2 (processLabels pairs [] []).1)
        fam = [fam]) ∧
    (2 ≤ cGet (processLabels pairs [] []).2 fam →
      famDictNames
        (cleanupDict (processLabels pairs [] []).2 (processLabels pairs [] []).1)
        fam =
        (List.range (cGet (processLabels pairs [] []).2 fam)).map
          (fun k => fam ++ " " ++ Nat.repr (k + 1))) := by
  have hinv : CounterInv (processLabels pairs [] []).2 :=
    counterInv_processLabels pairs [] [] counterInv_empty
  have hdict := processLabels_dict_eq_planList pairs hnodup
  have hcount : cGet (processLabels pairs [] []).2 fam = countFam pairs fam := by
    rw [processLabels_counter_cGet pairs [] [] fam]
    simp [cGet]
  have hnames :
      famDictNames
        (cleanupDict (processLabels pairs [] []).2 (processLabels pairs [] []).1)
        fam
        = (famNames pairs [] fam).map (cleanName (processLabels pairs [] []).2) := by
    rw [cleanupDict_eq_map, hdict, famDictNames_map_clean]
    rfl
  have hfam := famNames_eq pairs [] fam
  constructor
  · intro hone
    rw [hnames, hfam, ← hcount, hone]
    have h1 : List.range 1 = [0] := rfl
    rw [h1]
    simp only [List.map_cons, List.map_nil]
    rw [show cGet ([] : Counter) fam + 0 + 1 = 1 from rfl]
    rw [cleanName_numbered_one (processLabels pairs [] []).2 fam hinv hone]
  · intro hge
    rw [hnames, hfam, ← hcount]
    rw [List.map_map]
    apply List.map_congr_left
    intro k hk
    simp only [Function.comp]
    rw [cleanName_numbered_ge2 (processLabels pairs [] []).2 fam
      (cGet ([] : Counter) fam + k + 1) hinv hge]
    rw [show cGet ([] : Counter) fam + k + 1 = k + 1 from by simp [cGet]]
theorem cleanupDict_idem (c : Counter) (d : RenameDict)
    (hkeys : ∀ p ∈ c, p.1 ∈ tableValues) :
    cleanupDict c (cleanupDict c d) = cleanupDict c d := by
  rw [cleanupDict_eq_map, cleanupDict_eq_map, List.map_map]
  apply List.map_congr_left
  intro e he
  simp only [Function.comp]
  rw [cleanName_idem c e.2.swapName hkeys]

/-- C8: cleanup is idempotent on the state produced by discovery: a second
run of the cleanup pass changes neither rename dictionary, because after the
first run no entry still carries the numbered form that a count-1 family
matches. -/
theorem c8_cleanup_idempotent :
    ∀ parts st, processScoreParts parts emptyState = .ok st →
      cleanupDict st.part_counter
          (cleanupDict st.part_counter st.part_rename_dict)
        = cleanupDict st.part_counter st.part_rename_dict ∧
      cleanupDict st.instrument_counter
          (cleanupDict st.instrument_counter st.instrument_rename_dict)
        = cleanupDict st.instrument_counter st.instrument_rename_dict ∧
      cleanup_names (cleanup_names st) = cleanup_names st := by
  intro parts st hok
  obtain ⟨hp, hi⟩ := processScoreParts_ok_eq parts emptyState st hok
  have hpc : st.part_counter = (processLabels (partPairs parts) [] []).2 :=
    congrArg Prod.snd hp
  have hic : st.instrument_counter = (processLabels (instPairs parts) [] []).2 :=
    congrArg Prod.snd hi
  have hpkeys : ∀ p ∈ st.part_counter, p.1 ∈ tableValues := by
    rw [hpc]
    exact (counterInv_processLabels _ [] [] counterInv_empty).2.2
  have hikeys : ∀ p ∈ st.instrument_counter, p.1 ∈ tableValues := by
    rw [hic]
    exact (counterInv_processLabels _ [] [] counterInv_empty).2.2
  refine ⟨cleanupDict_idem _ _ hpkeys, cleanupDict_idem _ _ hikeys, ?_⟩
  cases st with
  | mk pd idd pc ic =>
    simp only [cleanup_names] at hpkeys hikeys ⊢
    rw [cleanupDict_idem pc pd hpkeys, cleanupDict_idem ic idd hikeys]

/-- C8 witness: idempotence at the discovery state of the end-to-end
example. -/
theorem c8_witness :
    cleanup_names (cleanup_names c9state) = cleanup_names c9state :=
  (c8_cleanup_idempotent c9parts c9state (by rfl)).2.2

/-- C3: after cleanup of a discovery-produced plan over a document with
unique element ids and one label per entity, a family counted exactly once
has the bare family name as its single proposed name, and a family counted
N ≥ 2 keeps the proposed names "<family> 1" .. "<family> N" with no gaps —
for the part plan and the instrument plan alike. -/
theorem c3_cleanup_counts :
    ∀ parts st, processScoreParts parts emptyState = .ok st →
      ((partPairs parts).map Prod.fst).Nodup →
      ((instPairs parts).map Prod.fst).Nodup →
      (∀ fam, cGet st.part_counter fam = 1 →
        famDictNames (cleanup_names st).part_rename_dict fam = [fam]) ∧
      (∀ fam N, cGet st.part_counter fam = N → 2 ≤ N →
        famDictNames (cleanup_names st).part_rename_dict fam =
          (List.range N).map (fun k => fam ++ " " ++ Nat.repr (k + 1))) ∧
      (∀ fam, cGet st.instrument_counter fam = 1 →
        famDictNames (cleanup_names st).instrument_rename_dict fam = [fam]) ∧
      (∀ fam N, cGet st.instrument_counter fam = N → 2 ≤ N →
        famDictNames (cleanup_names st).instrument_rename_dict fam =
          (List.range N).map (fun k => fam ++ " " ++ Nat.repr (k + 1))) := by
  intro parts st hok hnp hni
  obtain ⟨hp, hi⟩ := processScoreParts_ok_eq parts emptyState st hok
  have hpd : st.part_rename_dict = (processLabels (partPairs parts) [] []).1 :=
    congrArg Prod.fst hp
  have hpc : st.part_counter = (processLabels (partPairs parts) [] []).2 :=
    congrArg Prod.snd hp
  have hid : st.instrument_rename_dict = (processLabels (instPairs parts) [] []).1 :=
    congrArg Prod.fst hi
  have hic : st.instrument_counter = (processLabels (instPairs parts) [] []).2 :=
    congrArg Prod.snd hi
  have hcp : (cleanup_names st).part_rename_dict
      = cleanupDict st.part_counter st.part_rename_dict := rfl
  have hci : (cleanup_names st).instrument_rename_dict
      = cleanupDict st.instrument_counter st.instrument_rename_dict := rfl
  refine ⟨?_, ?_, ?_, ?_⟩
  · intro fam hone
    rw [hpc] at hone
    rw [hcp, hpd, hpc]
    exact (cleanup_after_discovery (partPairs parts) hnp fam).1 hone
  · intro fam N hN h2
    rw [hpc] at hN
    rw [hcp, hpd, hpc]
    rw [← hN]
    exact (cleanup_after_discovery (partPairs parts) hnp fam).2 (by rw [hN]; exact h2)
  · intro fam hone
    rw [hic] at hone
    rw [hci, hid, hic]
    exact (cleanup_after_discovery (instPairs parts) hni fam).1 hone
  · intro fam N hN h2
    rw [hic] at hN
    rw [hci, hid, hic]
    rw [← hN]
    exact (cleanup_after_discovery (instPairs parts) hni fam).2 (by rw [hN]; exact h2)

/-- C3 witness: in the end-to-end example "Harp" has count 1 and its single
entry's proposed name after cleanup is the bare "Harp". -/
theorem c3_witness :
    famDictNames (cleanup_names c9state).part_rename_dict "Harp" = ["Harp"] :=
  (c3_cleanup_counts c9parts c9state (by rfl) (by decide) (by decide)).1
    "Harp" (by rfl)

end StaffpadXmlCleanup
